import Mathlib

/-!
Shallow embedding of `src/analysis/mod.rs` of the `temperature` crate.

The module performs transient thermal analysis of an RC network.  Buffers
(`Vec<f64>`) are modelled as `List K` over a field `K`, column-major exactly as
in the source; machine indexing `v[i]` becomes `List.getD v i 0`.  The external
`linear` crate is trusted numerical code (out of scope per the specification):
`linear::multiply(alpha, a, b, beta, c, m)` is modelled by its documented
contract `C ← α·A·B + β·C` with `A : m×p`, `B : p×q`, `C : m×q` column-major,
`p = a.len()/m`, `q = c.len()/m`.  The eigendecomposition is likewise external:
its outputs `U`, `L` are universally quantified inputs of the post-eigen part
of `Analysis::new`.  The scalar functions `f64::exp` and `f64::sqrt` are
abstracted as parameters `expf`, `sqrtf` and instantiated with `Real.exp`,
`Real.sqrt` in the theorems about `Analysis::new`.
-/

set_option linter.unusedSectionVars false
set_option linter.unusedVariables false

namespace Temperature

variable {K : Type} [Field K]

/-- The length-`n` vector whose `i`-th entry is `f i`: models a `Vec<f64>` of
length `n` each of whose entries is written by a loop. -/
def build (n : ℕ) (f : ℕ → K) : List K := (List.range n).map f

/-- `linear::multiply(alpha, a, b, beta, c, m)` — dense multiply-accumulate
`C ← α·A·B + β·C`, `A : m×p`, `B : p×q`, `C : m×q`, column-major, with
`p = a.len()/m` and `q = c.len()/m` (contract of the external `linear` crate
on which `Analysis` relies, spec §6). -/
def multiply (α : K) (A B : List K) (β : K) (C : List K) (m : ℕ) : List K :=
  build C.length (fun idx =>
    α * (∑ k in Finset.range (A.length / m),
          A.getD (k * m + idx % m) 0 * B.getD ((idx / m) * (A.length / m) + k) 0)
      + β * C.getD idx 0)

/-! ### `Analysis::new` (src lines 34-92) -/

/-- `D`: the code clones `capacitance` and overwrites `D[i] = (1.0/D[i]).sqrt()`
for `i < nodes` (src lines 37-40); entries past `nodes` keep their cloned
values.  `sqrtf` abstracts `f64::sqrt`. -/
def mkD (nodes : ℕ) (sqrtf : K → K) (capacitance : List K) : List K :=
  build capacitance.length (fun i =>
    if i < nodes then sqrtf (1 / capacitance.getD i 0) else capacitance.getD i 0)

/-- The symmetrized negated system matrix
`A[j*nodes+i] = -1 * D[i] * D[j] * conductance[j*nodes+i]` (src lines 42-47);
it is handed to the external eigensolver. -/
def mkA (nodes : ℕ) (D G : List K) : List K :=
  build (nodes * nodes) (fun idx =>
    -1 * D.getD (idx % nodes) 0 * D.getD (idx / nodes) 0 * G.getD idx 0)

/-- `T1[i] = (dt * L[i]).exp()` (src lines 60-62); `expf` abstracts `f64::exp`. -/
def mkT1E (nodes : ℕ) (expf : K → K) (dt : K) (L : List K) : List K :=
  build nodes (fun i => expf (dt * L.getD i 0))

/-- `T2[j*nodes+i] = T1[i] * U[i*nodes+j]` for all `i j < nodes`
(src lines 63-67); the loop overwrites every entry of the `nodes×nodes`
scratch buffer, so it is a fresh `build`. -/
def mkT2E (nodes : ℕ) (T1 U : List K) : List K :=
  build (nodes * nodes) (fun idx =>
    T1.getD (idx % nodes) 0 * U.getD ((idx % nodes) * nodes + idx / nodes) 0)

/-- `E = multiply(1.0, U, T2, 1.0, 0, nodes)` with `E` freshly zeroed
(src lines 69-70). -/
def mkE (nodes : ℕ) (U T2 : List K) : List K :=
  multiply 1 U T2 1 (List.replicate (nodes * nodes) 0) nodes

/-- `T1[i] = (T1[i] - 1.0) / L[i]` (src lines 72-74), reusing the previous
`T1` whose entries were `exp(dt·L[i])`.  Note: the division is not guarded
against `L[i] = 0`. -/
def mkT1F (nodes : ℕ) (T1 L : List K) : List K :=
  build nodes (fun i => (T1.getD i 0 - 1) / L.getD i 0)

/-- `T2[j*nodes+i] = T1[i] * U[i*nodes+j] * D[j]` for `i < nodes`, `j < cores`
(src lines 75-79) followed by the slice `&T2[..nodes*cores]` taken at the call
site (src line 82): the loop overwrites exactly the first `nodes*cores`
entries of the scratch buffer, which are exactly the entries the slice keeps,
so the slice is a fresh `build` of length `nodes*cores`. -/
def mkT2F (nodes cores : ℕ) (T1 U D : List K) : List K :=
  build (nodes * cores) (fun idx =>
    T1.getD (idx % nodes) 0 * U.getD ((idx % nodes) * nodes + idx / nodes) 0
      * D.getD (idx / nodes) 0)

/-- `F = multiply(1.0, U, T2[..nodes*cores], 1.0, 0, nodes)` with `F` freshly
zeroed (src lines 81-82). -/
def mkF (nodes cores : ℕ) (U T2 : List K) : List K :=
  multiply 1 U T2 1 (List.replicate (nodes * cores) 0) nodes

/-! ### `Analysis::step` (src lines 95-133) -/

/-- The history buffer as created by `Analysis::new`: `S: vec![0.0; 2 * nodes]`
(src line 89). -/
def initS (nodes : ℕ) : List K := List.replicate (2 * nodes) 0

/-- The buffer-growth block (src lines 105-119).  Both branches produce the
same logical contents: a buffer of length `required = (steps+1)*nodes` whose
first block is the last `nodes`-block of the old buffer and whose remaining
entries are zero — the reallocation branch copies the preserved block into a
fresh zeroed vector, the reuse branch moves it to the front, zero-fills
`[nodes, required)` and sets the length.  Only the allocated capacity (not
modelled here, see `growCapacity`) differs between the branches. -/
def grow (nodes steps : ℕ) (S : List K) : List K :=
  build ((steps + 1) * nodes) (fun idx =>
    if idx < nodes then S.getD (S.length - nodes + idx) 0 else 0)

/-- Evolution of the allocated capacity across one call (src lines 110-118):
when the capacity is short of `required` a fresh vector of length exactly
`required` (hence capacity `required`) replaces the old one, otherwise the
capacity is untouched. -/
def growCapacity (cap required : ℕ) : ℕ := if cap < required then required else cap

/-- The forcing pass `linear::multiply(1.0, F, P, 1.0, &mut S[nodes..], nodes)`
(src line 121): entries below `nodes` are untouched, the tail accumulates
`F·P`. -/
def forcing (nodes : ℕ) (F P S : List K) : List K :=
  S.take nodes ++ multiply 1 F P 1 (S.drop nodes) nodes

/-- The `nodes`-block number `i` of a buffer, as the slice
`S[i*nodes .. (i+1)*nodes]`. -/
def blockOf (nodes i : ℕ) (S : List K) : List K := (S.drop (i * nodes)).take nodes

/-- Replace block `j` of `S` by `b` (used by the propagation pass, which
writes through the `into` half of `split_at_mut`). -/
def writeBlock (nodes j : ℕ) (b S : List K) : List K :=
  S.take (j * nodes) ++ b ++ S.drop (j * nodes + nodes)

/-- One iteration of the propagation loop (src lines 123-126):
`(from, into) = split_at_mut` of `S[i*nodes..(i+2)*nodes]` at `nodes`, then
`linear::multiply(1.0, E, from, 1.0, into, nodes)`, i.e. block `i+1` becomes
`E·(block i) + (block i+1)`. -/
def propOnce (nodes i : ℕ) (E S : List K) : List K :=
  writeBlock nodes (i + 1)
    (multiply 1 E (blockOf nodes i S) 1 (blockOf nodes (i + 1) S) nodes) S

/-- The propagation loop `for i in 0..n` applied in order. -/
def propagate (nodes : ℕ) (E S : List K) : ℕ → List K
  | 0 => S
  | n + 1 => propOnce nodes n E (propagate nodes E S n)

/-- The history buffer after one full `step` call with `steps` steps: growth,
forcing pass, then `steps` propagation iterations (src lines 105-126). -/
def stepS (nodes steps : ℕ) (E F P S : List K) : List K :=
  propagate nodes E (forcing nodes F P (grow nodes steps S)) steps

/-- The output-extraction loop (src lines 128-132):
`Q[j*cores + i] = D[i] * S[(j+1)*nodes + i] + ambience` for `i < cores`,
`j < steps`; all other entries of `Q` are untouched.  An entry `idx` with
`idx < steps*cores` decomposes uniquely as `j*cores + i` with `i = idx%cores`,
`j = idx/cores`. -/
def stepQ (cores nodes steps : ℕ) (D : List K) (amb : K) (S Q : List K) : List K :=
  build Q.length (fun idx =>
    if idx < steps * cores then
      D.getD (idx % cores) 0 * S.getD ((idx / cores + 1) * nodes + idx % cores) 0 + amb
    else Q.getD idx 0)

/-- Entry `r` of block `i` of a buffer. -/
def blk (nodes : ℕ) (S : List K) (i r : ℕ) : K := S.getD (i * nodes + r) 0

/-- State after `t` sequential calls of `step` with `steps = 1`, feeding the
successive length-`cores` columns of the trace `P`, starting from `S0`. -/
def seqS (nodes cores : ℕ) (E F P S0 : List K) : ℕ → List K
  | 0 => S0
  | t + 1 => stepS nodes 1 E F ((P.drop (t * cores)).take cores) (seqS nodes cores E F P S0 t)

/-- The engine state after running a whole trace of `step` calls starting from
the freshly constructed engine: each call derives `steps = P.len()/cores` as
the code does (src line 102). -/
def runTrace (cores nodes : ℕ) (E F : List K) (Ps : List (List K)) : List K :=
  Ps.foldl (fun S P => stepS nodes (P.length / cores) E F P S) (initS nodes)

/-- A flat column-major `m×n` buffer read as a Mathlib matrix. -/
def toMat (m n : ℕ) (A : List K) : Matrix (Fin m) (Fin n) K :=
  Matrix.of fun r c => A.getD (c.1 * m + r.1) 0

/-! ## Basic indexing lemmas -/

theorem length_build (n : ℕ) (f : ℕ → K) : (build n f).length = n := by
  simp [build]

theorem getD_eq_zero_of_le {S : List K} {i : ℕ} (h : S.length ≤ i) : S.getD i 0 = 0 := by
  simp [List.getD_eq_getElem?_getD, List.getElem?_eq_none h]

theorem getD_build (n : ℕ) (f : ℕ → K) (i : ℕ) :
    (build n f).getD i 0 = if i < n then f i else 0 := by
  by_cases h : i < n
  · simp [build, List.getD_eq_getElem?_getD, List.getElem?_map, List.getElem?_range, h]
  · rw [if_neg h]
    exact getD_eq_zero_of_le (by simp [build, Nat.le_of_not_lt h])

theorem getD_replicate_zero (n i : ℕ) : (List.replicate n (0 : K)).getD i 0 = 0 := by
  by_cases h : i < n
  · simp [List.getD_eq_getElem?_getD, List.getElem?_replicate, h]
  · exact getD_eq_zero_of_le (by simp [Nat.le_of_not_lt h])

theorem length_multiply (α : K) (A B : List K) (β : K) (C : List K) (m : ℕ) :
    (multiply α A B β C m).length = C.length := by
  simp [multiply, length_build]

theorem getD_multiply (α : K) (A B : List K) (β : K) (C : List K) (m idx : ℕ)
    (h : idx < C.length) :
    (multiply α A B β C m).getD idx 0
      = α * (∑ k in Finset.range (A.length / m),
            A.getD (k * m + idx % m) 0 * B.getD ((idx / m) * (A.length / m) + k) 0)
        + β * C.getD idx 0 := by
  rw [multiply, getD_build]
  simp [h]

theorem getD_append_left {l₁ l₂ : List K} {n : ℕ} (h : n < l₁.length) :
    (l₁ ++ l₂).getD n 0 = l₁.getD n 0 := by
  rw [List.getD_eq_getElem?_getD, List.getD_eq_getElem?_getD, List.getElem?_append_left h]

theorem getD_append_right {l₁ l₂ : List K} {n : ℕ} (h : l₁.length ≤ n) :
    (l₁ ++ l₂).getD n 0 = l₂.getD (n - l₁.length) 0 := by
  rw [List.getD_eq_getElem?_getD, List.getD_eq_getElem?_getD, List.getElem?_append_right h]

theorem getD_take {l : List K} {n m : ℕ} (h : n < m) :
    (l.take m).getD n 0 = l.getD n 0 := by
  rw [List.getD_eq_getElem?_getD, List.getD_eq_getElem?_getD, List.getElem?_take, if_pos h]

theorem getD_drop (l : List K) (i j : ℕ) :
    (l.drop i).getD j 0 = l.getD (i + j) 0 := by
  rw [List.getD_eq_getElem?_getD, List.getD_eq_getElem?_getD, List.getElem?_drop]

/-! ## Growth and forcing passes -/

theorem length_grow (nodes steps : ℕ) (S : List K) :
    (grow nodes steps S).length = (steps + 1) * nodes := length_build _ _

theorem getD_grow_lo {nodes steps idx : ℕ} (S : List K) (h : idx < nodes) :
    (grow nodes steps S).getD idx 0 = S.getD (S.length - nodes + idx) 0 := by
  rw [grow, getD_build,
    if_pos (lt_of_lt_of_le h (Nat.le_mul_of_pos_left nodes (Nat.succ_pos steps))), if_pos h]

theorem getD_grow_hi {nodes steps idx : ℕ} (S : List K) (h : nodes ≤ idx) :
    (grow nodes steps S).getD idx 0 = 0 := by
  rw [grow, getD_build]
  by_cases h2 : idx < (steps + 1) * nodes
  · rw [if_pos h2, if_neg (Nat.not_lt.mpr h)]
  · rw [if_neg h2]

theorem length_forcing (nodes : ℕ) (F P S : List K) (h : nodes ≤ S.length) :
    (forcing nodes F P S).length = S.length := by
  simp only [forcing, List.length_append, List.length_take, length_multiply,
    List.length_drop]
  omega

theorem getD_forcing_lo {nodes idx : ℕ} (F P S : List K) (h : idx < nodes)
    (hS : nodes ≤ S.length) :
    (forcing nodes F P S).getD idx 0 = S.getD idx 0 := by
  rw [forcing, getD_append_left (by simp [List.length_take]; omega), getD_take h]

theorem getD_forcing_hi {nodes idx : ℕ} (F P S : List K) (h : nodes ≤ idx)
    (hS : nodes ≤ S.length) :
    (forcing nodes F P S).getD idx 0
      = (multiply 1 F P 1 (S.drop nodes) nodes).getD (idx - nodes) 0 := by
  have hlen : (S.take nodes).length = nodes := by simp [List.length_take]; omega
  rw [forcing, getD_append_right (by omega : (S.take nodes).length ≤ idx), hlen]

/-! ## Block surgery for the propagation pass -/

theorem getD_blockOf (nodes i : ℕ) (S : List K) (k : ℕ) :
    (blockOf nodes i S).getD k 0 = if k < nodes then S.getD (i * nodes + k) 0 else 0 := by
  by_cases h : k < nodes
  · rw [blockOf, getD_take h, getD_drop, if_pos h]
  · rw [if_neg h, blockOf, List.getD_eq_getElem?_getD, List.getElem?_take, if_neg h]
    rfl

theorem length_blockOf {nodes i : ℕ} (S : List K) (h : (i + 1) * nodes ≤ S.length) :
    (blockOf nodes i S).length = nodes := by
  have h1 : (i + 1) * nodes = i * nodes + nodes := Nat.succ_mul i nodes
  simp only [blockOf, List.length_take, List.length_drop]
  omega

theorem length_writeBlock {nodes j : ℕ} {b S : List K} (hb : b.length = nodes)
    (h : (j + 1) * nodes ≤ S.length) :
    (writeBlock nodes j b S).length = S.length := by
  have h1 : (j + 1) * nodes = j * nodes + nodes := Nat.succ_mul j nodes
  simp only [writeBlock, List.length_append, List.length_take, List.length_drop, hb]
  omega

theorem getD_writeBlock_mem {nodes j r : ℕ} {b S : List K} (hb : b.length = nodes)
    (h : (j + 1) * nodes ≤ S.length) (hr : r < nodes) :
    (writeBlock nodes j b S).getD (j * nodes + r) 0 = b.getD r 0 := by
  have h1 : (j + 1) * nodes = j * nodes + nodes := Nat.succ_mul j nodes
  have htake : (S.take (j * nodes)).length = j * nodes := by
    simp [List.length_take]; omega
  have hab : (S.take (j * nodes) ++ b).length = j * nodes + nodes := by
    simp [htake, hb]
  rw [writeBlock, getD_append_left (by rw [hab]; omega),
    getD_append_right (by rw [htake]; omega), htake, Nat.add_sub_cancel_left]

theorem getD_writeBlock_lo {nodes j idx : ℕ} {b S : List K} (hb : b.length = nodes)
    (h : (j + 1) * nodes ≤ S.length) (hidx : idx < j * nodes) :
    (writeBlock nodes j b S).getD idx 0 = S.getD idx 0 := by
  have h1 : (j + 1) * nodes = j * nodes + nodes := Nat.succ_mul j nodes
  have htake : (S.take (j * nodes)).length = j * nodes := by
    simp [List.length_take]; omega
  have hab : (S.take (j * nodes) ++ b).length = j * nodes + nodes := by
    simp [htake, hb]
  rw [writeBlock, getD_append_left (by rw [hab]; omega),
    getD_append_left (by rw [htake]; omega), getD_take hidx]

theorem getD_writeBlock_hi {nodes j idx : ℕ} {b S : List K} (hb : b.length = nodes)
    (h : (j + 1) * nodes ≤ S.length) (hidx : (j + 1) * nodes ≤ idx) :
    (writeBlock nodes j b S).getD idx 0 = S.getD idx 0 := by
  have h1 : (j + 1) * nodes = j * nodes + nodes := Nat.succ_mul j nodes
  have htake : (S.take (j * nodes)).length = j * nodes := by
    simp [List.length_take]; omega
  have hab : (S.take (j * nodes) ++ b).length = j * nodes + nodes := by
    simp [htake, hb]
  rw [writeBlock, getD_append_right (by rw [hab]; omega), hab, getD_drop]
  congr 1
  omega

/-! ## The propagation loop -/

theorem length_propOnce {nodes i : ℕ} (E : List K) {S : List K}
    (hlen : (i + 2) * nodes ≤ S.length) :
    (propOnce nodes i E S).length = S.length := by
  have hb : (multiply 1 E (blockOf nodes i S) 1 (blockOf nodes (i + 1) S) nodes).length
      = nodes := by
    rw [length_multiply, length_blockOf S hlen]
  exact length_writeBlock hb hlen

theorem getD_propOnce_write {nodes i r : ℕ} {E S : List K}
    (hlen : (i + 2) * nodes ≤ S.length) (hr : r < nodes) :
    (propOnce nodes i E S).getD ((i + 1) * nodes + r) 0
      = (∑ k in Finset.range (E.length / nodes),
          E.getD (k * nodes + r) 0 * (blockOf nodes i S).getD k 0)
        + S.getD ((i + 1) * nodes + r) 0 := by
  have hbl : (blockOf nodes (i + 1) S).length = nodes := length_blockOf S hlen
  have hb : (multiply 1 E (blockOf nodes i S) 1 (blockOf nodes (i + 1) S) nodes).length
      = nodes := by
    rw [length_multiply, hbl]
  rw [propOnce, getD_writeBlock_mem hb hlen hr,
    getD_multiply 1 E _ 1 _ nodes r (by rw [hbl]; exact hr),
    Nat.mod_eq_of_lt hr, Nat.div_eq_of_lt hr]
  simp only [Nat.zero_mul, Nat.zero_add, one_mul, getD_blockOf nodes (i + 1) S r, if_pos hr]

theorem getD_propOnce_frame {nodes i idx : ℕ} {E S : List K}
    (hlen : (i + 2) * nodes ≤ S.length)
    (hidx : idx < (i + 1) * nodes ∨ (i + 2) * nodes ≤ idx) :
    (propOnce nodes i E S).getD idx 0 = S.getD idx 0 := by
  have hb : (multiply 1 E (blockOf nodes i S) 1 (blockOf nodes (i + 1) S) nodes).length
      = nodes := by
    rw [length_multiply, length_blockOf S hlen]
  rcases hidx with h | h
  · exact getD_writeBlock_lo hb hlen h
  · exact getD_writeBlock_hi hb hlen h

theorem length_propagate {nodes steps : ℕ} {E S0 : List K}
    (hS0 : S0.length = (steps + 1) * nodes) :
    ∀ {n}, n ≤ steps → (propagate nodes E S0 n).length = S0.length := by
  intro n
  induction n with
  | zero => intro _; rfl
  | succ m ih =>
    intro h
    have hm := ih (Nat.le_of_succ_le h)
    simp only [propagate]
    rw [length_propOnce E (by rw [hm, hS0]; exact Nat.mul_le_mul_right nodes (by omega)), hm]

theorem getD_propagate_frame {nodes steps : ℕ} {E S0 : List K}
    (hS0 : S0.length = (steps + 1) * nodes) :
    ∀ {n}, n ≤ steps → ∀ {idx}, (idx < nodes ∨ (n + 1) * nodes ≤ idx) →
      (propagate nodes E S0 n).getD idx 0 = S0.getD idx 0 := by
  intro n
  induction n with
  | zero => intro _ idx _; rfl
  | succ m ih =>
    intro h idx hidx
    have hm : (propagate nodes E S0 m).length = S0.length :=
      length_propagate hS0 (Nat.le_of_succ_le h)
    have hlen : (m + 2) * nodes ≤ (propagate nodes E S0 m).length := by
      rw [hm, hS0]; exact Nat.mul_le_mul_right nodes (by omega)
    simp only [propagate]
    rw [getD_propOnce_frame hlen ?side]
    case side =>
      rcases hidx with h1 | h1
      · exact Or.inl (lt_of_lt_of_le h1 (Nat.le_mul_of_pos_left nodes (Nat.succ_pos m)))
      · exact Or.inr h1
    apply ih (Nat.le_of_succ_le h)
    rcases hidx with h1 | h1
    · exact Or.inl h1
    · exact Or.inr (le_trans (Nat.mul_le_mul_right nodes (by omega)) h1)

theorem getD_propagate_stable {nodes steps : ℕ} {E S0 : List K}
    (hS0 : S0.length = (steps + 1) * nodes) {n : ℕ} :
    ∀ {m}, n ≤ m → m ≤ steps → ∀ {idx}, idx < (n + 1) * nodes →
      (propagate nodes E S0 m).getD idx 0 = (propagate nodes E S0 n).getD idx 0 := by
  intro m
  induction m with
  | zero =>
    intro h1 _ idx _
    have hn0 : n = 0 := Nat.le_zero.mp h1
    subst hn0; rfl
  | succ m ih =>
    intro h1 h2 idx hidx
    rcases Nat.eq_or_lt_of_le h1 with he | hl
    · subst he; rfl
    · have hnm : n ≤ m := Nat.lt_succ_iff.mp hl
      have hlen : (m + 2) * nodes ≤ (propagate nodes E S0 m).length := by
        rw [length_propagate hS0 (Nat.le_of_succ_le h2), hS0]
        exact Nat.mul_le_mul_right nodes (by omega)
      simp only [propagate]
      rw [getD_propOnce_frame hlen
        (Or.inl (lt_of_lt_of_le hidx (Nat.mul_le_mul_right nodes (by omega))))]
      exact ih hnm (Nat.le_of_succ_le h2) hidx

theorem getD_propagate_write {nodes steps : ℕ} {E S0 : List K}
    (hS0 : S0.length = (steps + 1) * nodes) {i r : ℕ} (hi : i < steps) (hr : r < nodes) :
    (propagate nodes E S0 (i + 1)).getD ((i + 1) * nodes + r) 0
      = (∑ k in Finset.range (E.length / nodes),
          E.getD (k * nodes + r) 0 * (blockOf nodes i (propagate nodes E S0 i)).getD k 0)
        + S0.getD ((i + 1) * nodes + r) 0 := by
  have hlen : (i + 2) * nodes ≤ (propagate nodes E S0 i).length := by
    rw [length_propagate hS0 (le_of_lt hi), hS0]
    exact Nat.mul_le_mul_right nodes (by omega)
  simp only [propagate]
  rw [getD_propOnce_write hlen hr]
  congr 1
  exact getD_propagate_frame hS0 (le_of_lt hi)
    (Or.inr (Nat.le_add_right _ r))

/-! ## The full stepping pass on the history buffer -/

theorem nodes_le_length_grow (nodes steps : ℕ) (S : List K) :
    nodes ≤ (grow nodes steps S).length := by
  rw [length_grow]; exact Nat.le_mul_of_pos_left nodes (Nat.succ_pos steps)

theorem length_forcing_grow (nodes steps : ℕ) (F P S : List K) :
    (forcing nodes F P (grow nodes steps S)).length = (steps + 1) * nodes := by
  rw [length_forcing _ _ _ _ (nodes_le_length_grow nodes steps S), length_grow]

theorem length_stepS (nodes steps : ℕ) (E F P S : List K) :
    (stepS nodes steps E F P S).length = (steps + 1) * nodes := by
  rw [stepS, length_propagate (length_forcing_grow nodes steps F P S) (le_refl steps),
    length_forcing_grow]

theorem getD_forcing_grow {nodes cores steps : ℕ} (F P S : List K) (hn : 0 < nodes)
    (hF : F.length = nodes * cores) {j r : ℕ} (hj : j < steps) (hr : r < nodes) :
    (forcing nodes F P (grow nodes steps S)).getD ((j + 1) * nodes + r) 0
      = ∑ k in Finset.range cores, F.getD (k * nodes + r) 0 * P.getD (j * cores + k) 0 := by
  have hsm : (j + 1) * nodes = j * nodes + nodes := Nat.succ_mul j nodes
  have hidx : nodes ≤ (j + 1) * nodes + r := by omega
  rw [getD_forcing_hi F P _ hidx (nodes_le_length_grow nodes steps S)]
  have hsub : (j + 1) * nodes + r - nodes = r + j * nodes := by omega
  have hC : ((grow nodes steps S : List K).drop nodes).length = steps * nodes := by
    rw [List.length_drop, length_grow]
    have : (steps + 1) * nodes = steps * nodes + nodes := Nat.succ_mul steps nodes
    omega
  have hin : r + j * nodes < ((grow nodes steps S : List K).drop nodes).length := by
    rw [hC]
    have h1 : (j + 1) * nodes ≤ steps * nodes := Nat.mul_le_mul_right nodes hj
    omega
  rw [hsub, getD_multiply 1 F P 1 _ nodes _ hin, hF, Nat.mul_div_cancel_left cores hn,
    Nat.add_mul_mod_self_right, Nat.mod_eq_of_lt hr,
    Nat.add_mul_div_right r j hn, Nat.div_eq_of_lt hr, Nat.zero_add,
    getD_drop, getD_grow_hi S (Nat.le_add_right nodes _)]
  ring

/-- Block `0` of the buffer produced by a `step` call is the last block of the
previous buffer, carried forward as the initial condition. -/
theorem stepS_blk0 {nodes steps : ℕ} (E F P S : List K)
    {r : ℕ} (hr : r < nodes) :
    blk nodes (stepS nodes steps E F P S) 0 r = S.getD (S.length - nodes + r) 0 := by
  have hSf := length_forcing_grow (K := K) nodes steps F P S
  simp only [stepS, blk, Nat.zero_mul, Nat.zero_add]
  rw [getD_propagate_frame hSf (le_refl steps) (Or.inl hr),
    getD_forcing_lo F P _ hr (nodes_le_length_grow nodes steps S),
    getD_grow_lo S hr]

/-- The governing recurrence of the propagation pass: in the final buffer of a
`step` call, block `i+1` is `E·(block i) + F·(column i of P)`. -/
theorem stepS_blk_succ {nodes cores steps : ℕ} {E F P S : List K} (hn : 0 < nodes)
    (hE : E.length = nodes * nodes) (hF : F.length = nodes * cores)
    {i r : ℕ} (hi : i < steps) (hr : r < nodes) :
    blk nodes (stepS nodes steps E F P S) (i + 1) r
      = (∑ k in Finset.range nodes,
          E.getD (k * nodes + r) 0 * blk nodes (stepS nodes steps E F P S) i k)
        + ∑ k in Finset.range cores, F.getD (k * nodes + r) 0 * P.getD (i * cores + k) 0 := by
  have hSf := length_forcing_grow (K := K) nodes steps F P S
  have hsm2 : (i + 1 + 1) * nodes = (i + 1) * nodes + nodes := Nat.succ_mul (i + 1) nodes
  simp only [stepS, blk]
  rw [getD_propagate_stable (n := i + 1) hSf (by omega) (le_refl steps) (by omega),
    getD_propagate_write hSf hi hr, hE, Nat.mul_div_cancel_left nodes hn]
  congr 1
  · apply Finset.sum_congr rfl
    intro k hk
    have hk' : k < nodes := Finset.mem_range.mp hk
    rw [getD_blockOf, if_pos hk']
    have hsm1 : (i + 1) * nodes = i * nodes + nodes := Nat.succ_mul i nodes
    rw [getD_propagate_stable hSf (le_of_lt hi) (le_refl steps) (by omega)]
  · exact getD_forcing_grow F P S hn hF hi hr

/-! ## The output-extraction loop -/

theorem length_stepQ (cores nodes steps : ℕ) (D : List K) (amb : K) (S Q : List K) :
    (stepQ cores nodes steps D amb S Q).length = Q.length := length_build _ _

theorem getD_stepQ_write {cores nodes steps : ℕ} {D S Q : List K} {amb : K}
    (hc : 0 < cores) {j c : ℕ} (hj : j < steps) (hcc : c < cores)
    (hQ : j * cores + c < Q.length) :
    (stepQ cores nodes steps D amb S Q).getD (j * cores + c) 0
      = D.getD c 0 * S.getD ((j + 1) * nodes + c) 0 + amb := by
  have hmod : (j * cores + c) % cores = c := by
    rw [Nat.add_comm, Nat.add_mul_mod_self_right, Nat.mod_eq_of_lt hcc]
  have hdiv : (j * cores + c) / cores = j := by
    rw [Nat.add_comm, Nat.add_mul_div_right c j hc, Nat.div_eq_of_lt hcc, Nat.zero_add]
  have hsm : (j + 1) * cores = j * cores + cores := Nat.succ_mul j cores
  have hle : (j + 1) * cores ≤ steps * cores := Nat.mul_le_mul_right cores hj
  rw [stepQ, getD_build, if_pos hQ, if_pos (by omega), hmod, hdiv]

theorem getD_stepQ_frame {cores nodes steps : ℕ} {D S Q : List K} {amb : K} {idx : ℕ}
    (hidx : steps * cores ≤ idx) :
    (stepQ cores nodes steps D amb S Q).getD idx 0 = Q.getD idx 0 := by
  rw [stepQ, getD_build]
  by_cases h : idx < Q.length
  · rw [if_pos h, if_neg (Nat.not_lt.mpr hidx)]
  · rw [if_neg h, getD_eq_zero_of_le (Nat.le_of_not_lt h)]

/-! ## Zero preservation (for the zero-power steady state) -/

theorem stepS_zero {nodes steps : ℕ} (E F P S : List K)
    (hP : ∀ i, P.getD i 0 = 0) (hS : ∀ i, S.getD i 0 = 0) :
    ∀ idx, (stepS nodes steps E F P S).getD idx 0 = 0 := by
  have hg : ∀ idx, (grow nodes steps S).getD idx 0 = 0 := by
    intro idx
    by_cases h : idx < nodes
    · rw [getD_grow_lo S h]; exact hS _
    · exact getD_grow_hi S (Nat.le_of_not_lt h)
  have hSf := length_forcing_grow (K := K) nodes steps F P S
  have hf : ∀ idx, (forcing nodes F P (grow nodes steps S)).getD idx 0 = 0 := by
    intro idx
    by_cases h1 : idx < nodes
    · rw [getD_forcing_lo F P _ h1 (nodes_le_length_grow nodes steps S)]; exact hg _
    · by_cases h2 : idx < (steps + 1) * nodes
      · rw [getD_forcing_hi F P _ (Nat.le_of_not_lt h1) (nodes_le_length_grow nodes steps S)]
        have hC : ((grow nodes steps S : List K).drop nodes).length = steps * nodes := by
          rw [List.length_drop, length_grow]
          have hss : (steps + 1) * nodes = steps * nodes + nodes := Nat.succ_mul steps nodes
          omega
        have hin : idx - nodes < ((grow nodes steps S : List K).drop nodes).length := by
          rw [hC]
          have hss : (steps + 1) * nodes = steps * nodes + nodes := Nat.succ_mul steps nodes
          omega
        rw [getD_multiply 1 F P 1 _ nodes _ hin]
        have hsum : (∑ k in Finset.range (F.length / nodes),
            F.getD (k * nodes + (idx - nodes) % nodes) 0
              * P.getD ((idx - nodes) / nodes * (F.length / nodes) + k) 0) = 0 := by
          apply Finset.sum_eq_zero
          intro k _
          rw [hP]; ring
        rw [hsum, getD_drop, hg]; ring
      · exact getD_eq_zero_of_le (by rw [hSf]; omega)
  have key : ∀ n, n ≤ steps →
      ∀ idx, (propagate nodes E (forcing nodes F P (grow nodes steps S)) n).getD idx 0 = 0 := by
    intro n
    induction n with
    | zero => intro _ idx; exact hf idx
    | succ m ih =>
      intro h idx
      have hm := ih (Nat.le_of_succ_le h)
      have hlen : (m + 2) * nodes
          ≤ (propagate nodes E (forcing nodes F P (grow nodes steps S)) m).length := by
        rw [length_propagate hSf (Nat.le_of_succ_le h), hSf]
        exact Nat.mul_le_mul_right nodes (by omega)
      have hsm1 : (m + 1) * nodes = m * nodes + nodes := Nat.succ_mul m nodes
      have hsm2 : (m + 2) * nodes = (m + 1) * nodes + nodes := Nat.succ_mul (m + 1) nodes
      by_cases hin : (m + 1) * nodes ≤ idx ∧ idx < (m + 2) * nodes
      · obtain ⟨hlo, hhi⟩ := hin
        have hidx : idx = (m + 1) * nodes + (idx - (m + 1) * nodes) := by omega
        have hr : idx - (m + 1) * nodes < nodes := by omega
        rw [propagate, hidx, getD_propOnce_write hlen hr]
        have hsum : (∑ k in Finset.range (E.length / nodes),
            E.getD (k * nodes + (idx - (m + 1) * nodes)) 0
              * (blockOf nodes m
                  (propagate nodes E (forcing nodes F P (grow nodes steps S)) m)).getD k 0)
            = 0 := by
          apply Finset.sum_eq_zero
          intro k _
          rw [getD_blockOf]
          by_cases hk : k < nodes
          · rw [if_pos hk, hm]; ring
          · rw [if_neg hk]; ring
        rw [hsum, hm]; ring
      · rw [propagate, getD_propOnce_frame hlen (by omega)]
        exact hm idx
  intro idx
  exact key steps (le_refl steps) idx

/-! ## Claim theorems -/

/-- Claim C1: for every call to `step` with a power slice `P` of length
`cores·steps` (`steps ≥ 1`), after the forcing pass and the sequential
propagation pass every history-buffer block `i+1` (for `i` from `0` to
`steps−1`) equals `E·(block i) + F·(column i of P)`, where block `0` is the
state carried forward from before the call. -/
theorem step_recurrence {nodes cores steps : ℕ} (E F P S : List K)
    (hn : 0 < nodes) (hE : E.length = nodes * nodes) (hF : F.length = nodes * cores)
    (hP : P.length = cores * steps) (hsteps : 1 ≤ steps) (hS : nodes ≤ S.length) :
    (∀ r < nodes,
      blk nodes (stepS nodes steps E F P S) 0 r = S.getD (S.length - nodes + r) 0)
    ∧ ∀ i < steps, ∀ r < nodes,
        blk nodes (stepS nodes steps E F P S) (i + 1) r
          = (∑ k in Finset.range nodes,
              E.getD (k * nodes + r) 0 * blk nodes (stepS nodes steps E F P S) i k)
            + ∑ k in Finset.range cores,
                F.getD (k * nodes + r) 0 * P.getD (i * cores + k) 0 := by
  constructor
  · intro r hr
    exact stepS_blk0 E F P S hr
  · intro i hi r hr
    exact stepS_blk_succ hn hE hF hi hr

/-- Claim C3: for every call to `step`, every core `c < cores` and every
computed step `j < steps`, the output entry `Q[j·cores + c]` equals
`D[c]·S[(j+1)·nodes + c] + ambient`, where `S` is the history buffer after the
propagation pass. -/
theorem step_output_formula {nodes cores steps : ℕ} (D E F P S Q : List K) (amb : K)
    (hn : 0 < nodes) (hc : 0 < cores) (hP : P.length = cores * steps)
    (hsteps : 1 ≤ steps) (hQ : steps * cores ≤ Q.length) :
    ∀ c < cores, ∀ j < steps,
      (stepQ cores nodes steps D amb (stepS nodes steps E F P S) Q).getD (j * cores + c) 0
        = D.getD c 0 * (stepS nodes steps E F P S).getD ((j + 1) * nodes + c) 0 + amb := by
  intro c hc' j hj
  apply getD_stepQ_write hc hj hc'
  have hsm : (j + 1) * cores = j * cores + cores := Nat.succ_mul j cores
  have hle : (j + 1) * cores ≤ steps * cores := Nat.mul_le_mul_right cores hj
  omega

/-- Claim C7 counterexample: the claim says the history buffer at construction
consists of exactly one length-`nodes` block; in the code it is
`vec![0.0; 2 * nodes]` (src line 89), so for `nodes = 1` its length is `2`,
not `1`. -/
theorem initS_one_block_ce : ¬ ((initS 1 : List ℚ).length = 1) := by
  simp [initS]

/-- Claim C7 amended: at stepping-engine construction the history buffer
consists of exactly two length-`nodes` blocks, and every entry is zero
(all-zero initial temperature). -/
theorem initS_blocks (nodes : ℕ) :
    (initS nodes : List ℚ).length = 2 * nodes
    ∧ ∀ idx, (initS nodes : List ℚ).getD idx 0 = 0 := by
  refine ⟨by simp [initS], fun idx => getD_replicate_zero _ _⟩

/-- Claim C8 counterexample: the logical length of the history buffer can
decrease.  With `nodes = 1`, a call with `steps = 2` leaves a buffer of length
`3`; a following call with `steps = 1` leaves length `2 < 3`. -/
theorem step_length_decreases_ce :
    (stepS 1 1 [(1:ℚ)] [1] [0] (stepS 1 2 [(1:ℚ)] [1] [0, 0] (initS 1))).length
      < (stepS 1 2 [(1:ℚ)] [1] [0, 0] (initS 1)).length := by
  rw [length_stepS, length_stepS]
  omega

/-- Claim C8 amended: after each valid call the logical length of the history
buffer is exactly `(steps+1)·nodes` — which decreases whenever a call has
fewer steps than its predecessor — while the allocated capacity
(src lines 110-118: reallocated to exactly `required` only when it was
smaller) never decreases. -/
theorem step_length_capacity {nodes steps : ℕ} (E F P S : List K) (cap : ℕ)
    (hsteps : 1 ≤ steps) :
    (stepS nodes steps E F P S).length = (steps + 1) * nodes
    ∧ cap ≤ growCapacity cap ((steps + 1) * nodes) := by
  refine ⟨length_stepS nodes steps E F P S, ?_⟩
  unfold growCapacity
  split <;> omega

/-- Claim C9: if every entry of the power slice `P` is `0` and the engine's
state is the all-zero initial state, then for any `steps ≥ 1` every output
temperature written to `Q` equals the configured ambient temperature
exactly. -/
theorem zero_power_ambient {nodes cores steps : ℕ} (E F P D Q : List K) (amb : K)
    (hn : 0 < nodes) (hc : 0 < cores) (hsteps : 1 ≤ steps)
    (hP : ∀ i, P.getD i 0 = 0) (hQ : steps * cores ≤ Q.length) :
    ∀ idx < steps * cores,
      (stepQ cores nodes steps D amb (stepS nodes steps E F P (initS nodes)) Q).getD idx 0
        = amb := by
  intro idx hidx
  have hdm : idx / cores * cores + idx % cores = idx := by
    rw [Nat.mul_comm (idx / cores) cores]
    exact Nat.div_add_mod idx cores
  have hj : idx / cores < steps := Nat.div_lt_of_lt_mul (by rw [Nat.mul_comm]; exact hidx)
  rw [← hdm, getD_stepQ_write hc hj (Nat.mod_lt idx hc) (by omega),
    stepS_zero E F P (initS nodes) hP (fun i => getD_replicate_zero _ _) _,
    mul_zero, zero_add]

/-- Claim C10: for every call to `step` whose output slice `Q` has at least
`cores·steps` entries, the written entries `Q[0 .. cores·steps)` do not depend
on `Q`'s prior contents (the pass never reads them), entries at index
`cores·steps` or beyond are left unchanged, and nothing relates `Q.length` to
the step count derived from `P` beyond these bounds — the same conclusion
holds for any two output buffers `Q`, `Q'` of unrelated lengths, mirroring
that the code checks only divisibility by `cores`, and only via
debug assertions (src lines 99-103). -/
theorem step_output_frame {nodes cores steps : ℕ} (D S : List K) (amb : K)
    (Q Q' : List K) (hQ : steps * cores ≤ Q.length) (hQ' : steps * cores ≤ Q'.length) :
    (stepQ cores nodes steps D amb S Q).length = Q.length
    ∧ (∀ idx < steps * cores,
        (stepQ cores nodes steps D amb S Q).getD idx 0
          = (stepQ cores nodes steps D amb S Q').getD idx 0)
    ∧ ∀ idx, steps * cores ≤ idx →
        (stepQ cores nodes steps D amb S Q).getD idx 0 = Q.getD idx 0 := by
  refine ⟨length_stepQ cores nodes steps D amb S Q, fun idx hidx => ?_,
    fun idx hidx => getD_stepQ_frame hidx⟩
  rw [stepQ, stepQ, getD_build, getD_build, if_pos (lt_of_lt_of_le hidx hQ),
    if_pos (lt_of_lt_of_le hidx hQ'), if_pos hidx, if_pos hidx]

/-- Claim C6: over every sequence of valid `step` calls the history buffer
keeps `len(S)` a positive multiple of `nodes`; at the start of each call's
numerical passes (i.e. in the freshly grown buffer) the first length-`nodes`
block equals the last block of the buffer left by the previous call — the
propagation pass writes blocks `1..steps`, so that last block is the last
block written — and on the first call it is the all-zero initial block. -/
theorem history_invariant {nodes cores : ℕ} (E F : List K) (Ps : List (List K))
    (hn : 0 < nodes) (hc : 0 < cores)
    (hvalid : ∀ P ∈ Ps, cores ∣ P.length ∧ cores ≤ P.length) :
    nodes ∣ (runTrace cores nodes E F Ps).length
    ∧ 0 < (runTrace cores nodes E F Ps).length
    ∧ (∀ steps, ∀ r < nodes,
        (grow nodes steps (runTrace cores nodes E F Ps)).getD r 0
          = (runTrace cores nodes E F Ps).getD
              ((runTrace cores nodes E F Ps).length - nodes + r) 0)
    ∧ (Ps = [] → ∀ idx, (runTrace cores nodes E F Ps).getD idx 0 = 0) := by
  have key : ∀ (l : List (List K)) (S : List K), nodes ∣ S.length → 0 < S.length →
      nodes ∣ (l.foldl (fun S P => stepS nodes (P.length / cores) E F P S) S).length
      ∧ 0 < (l.foldl (fun S P => stepS nodes (P.length / cores) E F P S) S).length := by
    intro l
    induction l with
    | nil => intro S h1 h2; exact ⟨h1, h2⟩
    | cons P l ih =>
      intro S h1 h2
      rw [List.foldl_cons]
      apply ih
      · rw [length_stepS]; exact dvd_mul_left nodes _
      · rw [length_stepS]; exact Nat.mul_pos (Nat.succ_pos _) hn
  have hinit1 : nodes ∣ (initS nodes : List K).length := by
    simp only [initS, List.length_replicate]
    exact dvd_mul_left nodes 2
  have hinit2 : 0 < (initS nodes : List K).length := by
    simp only [initS, List.length_replicate]
    omega
  obtain ⟨h1, h2⟩ := key Ps (initS nodes) hinit1 hinit2
  exact ⟨h1, h2, fun steps r hr => getD_grow_lo _ hr,
    fun hPs idx => by subst hPs; exact getD_replicate_zero _ _⟩

/-- Claim C5: calling `step` once with `steps = k` produces exactly the same
output temperatures as calling `step` `k` times with `steps = 1` on the
successive length-`cores` columns of the same trace, because the history
buffer carries the final state of each call forward as the initial state of
the next call.  (In this exact-arithmetic model of the field operations the
outputs are equal on the nose; the spec's floating-point tolerance is not
needed.) -/
theorem step_batched_eq_sequential {nodes cores k : ℕ} (D E F P S0 Q Qs : List K)
    (amb : K) (hn : 0 < nodes) (hc : 0 < cores) (hcn : cores ≤ nodes)
    (hE : E.length = nodes * nodes)
    (hF : F.length = nodes * cores) (hP : P.length = cores * k) (hk : 1 ≤ k)
    (hS0 : nodes ≤ S0.length) (hQ : k * cores ≤ Q.length) (hQs : cores ≤ Qs.length) :
    ∀ t < k, ∀ c < cores,
      (stepQ cores nodes k D amb (stepS nodes k E F P S0) Q).getD (t * cores + c) 0
        = (stepQ cores nodes 1 D amb (seqS nodes cores E F P S0 (t + 1)) Qs).getD c 0 := by
  have bridge : ∀ t, t ≤ k → ∀ r < nodes,
      (seqS nodes cores E F P S0 t).getD
          ((seqS nodes cores E F P S0 t).length - nodes + r) 0
        = blk nodes (stepS nodes k E F P S0) t r := by
    intro t
    induction t with
    | zero =>
      intro _ r hr
      simp only [seqS]
      exact (stepS_blk0 E F P S0 hr).symm
    | succ t ih =>
      intro ht r hr
      have htk : t < k := Nat.lt_of_succ_le ht
      simp only [seqS]
      rw [length_stepS, show (1 + 1) * nodes - nodes + r = 1 * nodes + r by omega]
      show blk nodes (stepS nodes 1 E F ((P.drop (t * cores)).take cores)
        (seqS nodes cores E F P S0 t)) 1 r = _
      have hrec : blk nodes (stepS nodes 1 E F ((P.drop (t * cores)).take cores)
            (seqS nodes cores E F P S0 t)) 1 r
          = (∑ j in Finset.range nodes,
              E.getD (j * nodes + r) 0
                * blk nodes (stepS nodes 1 E F ((P.drop (t * cores)).take cores)
                    (seqS nodes cores E F P S0 t)) 0 j)
            + ∑ j in Finset.range cores,
                F.getD (j * nodes + r) 0
                  * ((P.drop (t * cores)).take cores).getD (0 * cores + j) 0 :=
        stepS_blk_succ hn hE hF Nat.zero_lt_one hr
      rw [hrec, stepS_blk_succ hn hE hF htk hr]
      congr 1
      · apply Finset.sum_congr rfl
        intro j hj
        have hj' : j < nodes := Finset.mem_range.mp hj
        rw [stepS_blk0 E F _ _ hj']
        rw [ih (le_of_lt htk) j hj']
      · apply Finset.sum_congr rfl
        intro j hj
        have hj' : j < cores := Finset.mem_range.mp hj
        rw [Nat.zero_mul, Nat.zero_add, getD_take hj', getD_drop]
  intro t ht c hcc
  have hsm : (t + 1) * cores = t * cores + cores := Nat.succ_mul t cores
  have hle : (t + 1) * cores ≤ k * cores := Nat.mul_le_mul_right cores ht
  rw [getD_stepQ_write hc ht hcc (by omega)]
  have hq2 := @getD_stepQ_write K _ cores nodes 1 D
    (seqS nodes cores E F P S0 (t + 1)) Qs amb hc 0 c Nat.zero_lt_one hcc
    (show 0 * cores + c < Qs.length by omega)
  simp only [Nat.zero_mul, Nat.zero_add] at hq2
  rw [hq2]
  have hlen1 : (seqS nodes cores E F P S0 (t + 1)).length = 2 * nodes := by
    simp only [seqS]
    rw [length_stepS]
  have hb := bridge (t + 1) ht c (lt_of_lt_of_le hcc hcn)
  rw [hlen1, show 2 * nodes - nodes + c = 1 * nodes + c by omega] at hb
  rw [hb]
  rfl

/-! ## Column-major index helpers and the operator-construction claims -/

theorem colmajor_lt {m n r c : ℕ} (hr : r < m) (hc : c < n) : c * m + r < m * n := by
  have h1 : (c + 1) * m ≤ n * m := Nat.mul_le_mul_right m hc
  have h2 : (c + 1) * m = c * m + m := Nat.succ_mul c m
  have h3 : n * m = m * n := Nat.mul_comm n m
  omega

theorem colmajor_mod {m r c : ℕ} (hr : r < m) : (c * m + r) % m = r := by
  rw [Nat.add_comm, Nat.add_mul_mod_self_right, Nat.mod_eq_of_lt hr]

theorem colmajor_div {m r c : ℕ} (hm : 0 < m) (hr : r < m) : (c * m + r) / m = c := by
  rw [Nat.add_comm, Nat.add_mul_div_right r c hm, Nat.div_eq_of_lt hr, Nat.zero_add]

theorem toMat_apply (m n : ℕ) (A : List K) (r : Fin m) (c : Fin n) :
    toMat m n A r c = A.getD (c.1 * m + r.1) 0 := rfl

/-- Claim C2: for every circuit accepted by `new` (`nodes ≥ 1`,
`cores ≤ nodes`, positive capacitances) and every eigensolver output `U`, `L`,
the constructed operators satisfy `E = U·diag(exp(Δt·L))·Uᵗ` and `F` = the
first `cores` columns of `U·diag((exp(Δt·L)−1)/L)·Uᵗ·diag(D)`, where
`D[i] = 1/√capacitance[i]` (the code computes `sqrt(1/c)`, equal to
`1/sqrt c`).  The symmetric conductance matrix enters only through the
eigensolver, which is external: `U` and `L` here are whatever it returned. -/
theorem operators_eigen_form {nodes cores : ℕ} (hn : 0 < nodes) (hc : cores ≤ nodes)
    (dt : ℝ) (capacitance U L : List ℝ)
    (hcap : capacitance.length = nodes) (hU : U.length = nodes * nodes)
    (hL : L.length = nodes) (hpos : ∀ i < nodes, 0 < capacitance.getD i 0) :
    toMat nodes nodes (mkE nodes U (mkT2E nodes (mkT1E nodes Real.exp dt L) U))
      = toMat nodes nodes U
          * Matrix.diagonal (fun i : Fin nodes => Real.exp (dt * L.getD i.1 0))
          * (toMat nodes nodes U).transpose
    ∧ toMat nodes cores (mkF nodes cores U (mkT2F nodes cores
          (mkT1F nodes (mkT1E nodes Real.exp dt L) L) U (mkD nodes Real.sqrt capacitance)))
      = (toMat nodes nodes U
          * Matrix.diagonal
              (fun i : Fin nodes => (Real.exp (dt * L.getD i.1 0) - 1) / L.getD i.1 0)
          * (toMat nodes nodes U).transpose
          * Matrix.diagonal
              (fun i : Fin nodes => 1 / Real.sqrt (capacitance.getD i.1 0))).submatrix
          id (Fin.castLE hc) := by
  constructor
  · apply Matrix.ext
    intro r c
    have hrc : c.1 * nodes + r.1 < nodes * nodes := colmajor_lt r.2 c.2
    have h1 : toMat nodes nodes (mkE nodes U (mkT2E nodes (mkT1E nodes Real.exp dt L) U)) r c
        = ∑ k in Finset.range nodes,
            U.getD (k * nodes + r.1) 0
              * (Real.exp (dt * L.getD k 0) * U.getD (k * nodes + c.1) 0) := by
      rw [toMat_apply, mkE,
        getD_multiply 1 U _ 1 _ nodes _ (by rw [List.length_replicate]; exact hrc),
        hU, Nat.mul_div_cancel_left nodes hn, colmajor_mod r.2, colmajor_div hn r.2,
        getD_replicate_zero, mul_zero, add_zero, one_mul]
      apply Finset.sum_congr rfl
      intro k hk
      have hk' : k < nodes := Finset.mem_range.mp hk
      rw [mkT2E, getD_build, if_pos (colmajor_lt hk' c.2), colmajor_mod hk',
        colmajor_div hn hk', mkT1E, getD_build, if_pos hk']
    have h2 : (toMat nodes nodes U
          * Matrix.diagonal (fun i : Fin nodes => Real.exp (dt * L.getD i.1 0))
          * (toMat nodes nodes U).transpose) r c
        = ∑ k in Finset.range nodes,
            U.getD (k * nodes + r.1) 0 * Real.exp (dt * L.getD k 0)
              * U.getD (k * nodes + c.1) 0 := by
      rw [Matrix.mul_apply]
      simp only [Matrix.mul_diagonal, Matrix.transpose_apply, toMat_apply]
      exact Fin.sum_univ_eq_sum_range
        (fun k => U.getD (k * nodes + r.1) 0 * Real.exp (dt * L.getD k 0)
          * U.getD (k * nodes + c.1) 0) nodes
    rw [h1, h2]
    apply Finset.sum_congr rfl
    intro k hk
    ring
  · apply Matrix.ext
    intro r c
    have hrc : c.1 * nodes + r.1 < nodes * cores := colmajor_lt r.2 c.2
    have hcn : c.1 < nodes := lt_of_lt_of_le c.2 hc
    have h1 : toMat nodes cores (mkF nodes cores U (mkT2F nodes cores
          (mkT1F nodes (mkT1E nodes Real.exp dt L) L) U
          (mkD nodes Real.sqrt capacitance))) r c
        = ∑ k in Finset.range nodes,
            U.getD (k * nodes + r.1) 0
              * ((Real.exp (dt * L.getD k 0) - 1) / L.getD k 0
                  * U.getD (k * nodes + c.1) 0
                  * (1 / Real.sqrt (capacitance.getD c.1 0))) := by
      rw [toMat_apply, mkF,
        getD_multiply 1 U _ 1 _ nodes _ (by rw [List.length_replicate]; exact hrc),
        hU, Nat.mul_div_cancel_left nodes hn, colmajor_mod r.2, colmajor_div hn r.2,
        getD_replicate_zero, mul_zero, add_zero, one_mul]
      apply Finset.sum_congr rfl
      intro k hk
      have hk' : k < nodes := Finset.mem_range.mp hk
      rw [mkT2F, getD_build, if_pos (colmajor_lt hk' c.2), colmajor_mod hk',
        colmajor_div hn hk', mkT1F, getD_build, if_pos hk', mkT1E, getD_build, if_pos hk',
        mkD, getD_build, if_pos (by rw [hcap]; exact hcn), if_pos hcn,
        one_div, Real.sqrt_inv, ← one_div]
    have h2 : ((toMat nodes nodes U
          * Matrix.diagonal
              (fun i : Fin nodes => (Real.exp (dt * L.getD i.1 0) - 1) / L.getD i.1 0)
          * (toMat nodes nodes U).transpose
          * Matrix.diagonal
              (fun i : Fin nodes => 1 / Real.sqrt (capacitance.getD i.1 0))).submatrix
          id (Fin.castLE hc)) r c
        = (∑ k in Finset.range nodes,
            U.getD (k * nodes + r.1) 0 * ((Real.exp (dt * L.getD k 0) - 1) / L.getD k 0)
              * U.getD (k * nodes + c.1) 0)
            * (1 / Real.sqrt (capacitance.getD c.1 0)) := by
      rw [Matrix.submatrix_apply, Matrix.mul_diagonal, Matrix.mul_apply]
      simp only [Matrix.mul_diagonal, Matrix.transpose_apply, toMat_apply, id_eq]
      congr 1
      exact Fin.sum_univ_eq_sum_range
        (fun k => U.getD (k * nodes + r.1) 0
          * ((Real.exp (dt * L.getD k 0) - 1) / L.getD k 0)
          * U.getD (k * nodes + c.1) 0) nodes
    rw [h1, h2, Finset.sum_mul]
    apply Finset.sum_congr rfl
    intro k hk
    ring

/-- Claim C4 (code bug): the per-eigen-component scalar `(exp(Δt·L[i])−1)/L[i]`
used to build `F` (src line 73) is computed by an unguarded division.  At the
failing input `nodes = 1`, `Δt = 1`, eigenvalue `L = [0]`, the scalar is
`(exp 0 − 1)/0` — `0/0`, which is `NaN` in `f64` and `0` in this real-division
model — and not the analytic limit `Δt = 1` that the claim asserts the code
produces. -/
theorem forcing_scalar_unguarded :
    (mkT1F 1 (mkT1E 1 Real.exp 1 [(0:ℝ)]) [(0:ℝ)]).getD 0 0 = 0
    ∧ (mkT1F 1 (mkT1E 1 Real.exp 1 [(0:ℝ)]) [(0:ℝ)]).getD 0 0 ≠ (1:ℝ) := by
  have h : (mkT1F 1 (mkT1E 1 Real.exp 1 [(0:ℝ)]) [(0:ℝ)]).getD 0 0 = 0 := by
    rw [mkT1F, getD_build, if_pos Nat.one_pos, mkT1E, getD_build, if_pos Nat.one_pos]
    norm_num [List.getD]
  exact ⟨h, by rw [h]; norm_num⟩

/-! ## Witnesses: each claim theorem with hypotheses applied at a concrete
input, with every hypothesis discharged there. -/

/-- Witness for C1 at `nodes = cores = steps = 1`, `E = [2]`, `F = [3]`,
`P = [5]`, previous buffer `[0, 7]`. -/
theorem step_recurrence_witness :
    blk 1 (stepS 1 1 [(2:ℚ)] [3] [5] [(0:ℚ), 7]) (0 + 1) 0
      = (∑ k in Finset.range 1,
          [(2:ℚ)].getD (k * 1 + 0) 0 * blk 1 (stepS 1 1 [(2:ℚ)] [3] [5] [(0:ℚ), 7]) 0 k)
        + ∑ k in Finset.range 1,
            [(3:ℚ)].getD (k * 1 + 0) 0 * [(5:ℚ)].getD (0 * 1 + k) 0 :=
  (step_recurrence [2] [3] [5] [0, 7] Nat.one_pos rfl rfl rfl (le_refl 1) (by simp)).2
    0 Nat.one_pos 0 Nat.one_pos

/-- Witness for C2 at `nodes = cores = 1`, `Δt = 1`, `capacitance = [1]`,
eigensolver output `U = [1]`, `L = [0]`. -/
theorem operators_eigen_form_witness :
    toMat 1 1 (mkE 1 [(1:ℝ)] (mkT2E 1 (mkT1E 1 Real.exp 1 [(0:ℝ)]) [(1:ℝ)]))
      = toMat 1 1 [(1:ℝ)]
          * Matrix.diagonal (fun i : Fin 1 => Real.exp (1 * [(0:ℝ)].getD i.1 0))
          * (toMat 1 1 [(1:ℝ)]).transpose
    ∧ toMat 1 1 (mkF 1 1 [(1:ℝ)] (mkT2F 1 1
          (mkT1F 1 (mkT1E 1 Real.exp 1 [(0:ℝ)]) [(0:ℝ)]) [(1:ℝ)]
          (mkD 1 Real.sqrt [(1:ℝ)])))
      = (toMat 1 1 [(1:ℝ)]
          * Matrix.diagonal
              (fun i : Fin 1 =>
                (Real.exp (1 * [(0:ℝ)].getD i.1 0) - 1) / [(0:ℝ)].getD i.1 0)
          * (toMat 1 1 [(1:ℝ)]).transpose
          * Matrix.diagonal
              (fun i : Fin 1 => 1 / Real.sqrt ([(1:ℝ)].getD i.1 0))).submatrix
          id (Fin.castLE (le_refl 1)) :=
  operators_eigen_form Nat.one_pos (le_refl 1) 1 [1] [1] [0] rfl rfl rfl
    (by
      intro i hi
      have hi0 : i = 0 := by omega
      subst hi0
      norm_num [List.getD])

/-- Witness for C3 at `nodes = cores = steps = 1`, `D = [1]`, `E = F = [1]`,
`P = [0]`, previous buffer `[0, 0]`, `Q = [0]`, ambient `5`. -/
theorem step_output_formula_witness :
    (stepQ 1 1 1 [(1:ℚ)] 5 (stepS 1 1 [(1:ℚ)] [1] [0] [(0:ℚ), 0]) [0]).getD (0 * 1 + 0) 0
      = [(1:ℚ)].getD 0 0 * (stepS 1 1 [(1:ℚ)] [1] [0] [(0:ℚ), 0]).getD ((0 + 1) * 1 + 0) 0
        + 5 :=
  step_output_formula [1] [1] [1] [0] [0, 0] [0] 5 Nat.one_pos Nat.one_pos rfl
    (le_refl 1) (by simp) 0 Nat.one_pos 0 Nat.one_pos

/-- Witness for C5 at `nodes = cores = k = 1`, `D = E = F = [1]`, `P = [2]`,
initial buffer `[0, 0]`, output buffers `[0]`, ambient `0`. -/
theorem step_batched_eq_sequential_witness :
    (stepQ 1 1 1 [(1:ℚ)] 0 (stepS 1 1 [(1:ℚ)] [1] [2] [(0:ℚ), 0]) [0]).getD (0 * 1 + 0) 0
      = (stepQ 1 1 1 [(1:ℚ)] 0 (seqS 1 1 [(1:ℚ)] [1] [2] [(0:ℚ), 0] (0 + 1)) [0]).getD 0 0 :=
  step_batched_eq_sequential [1] [1] [1] [2] [0, 0] [0] [0] 0 Nat.one_pos Nat.one_pos
    (le_refl 1) rfl rfl rfl (le_refl 1) (by simp) (by simp) (by simp)
    0 Nat.one_pos 0 Nat.one_pos

/-- Witness for C6 on the one-call trace `[[1]]` with `nodes = cores = 1`,
`E = F = [1]`. -/
theorem history_invariant_witness :
    (1 : ℕ) ∣ (runTrace 1 1 [(1:ℚ)] [1] [[1]]).length
    ∧ 0 < (runTrace 1 1 [(1:ℚ)] [1] [[1]]).length :=
  ⟨(history_invariant [(1:ℚ)] [1] [[1]] Nat.one_pos Nat.one_pos
      (by
        intro P hP
        rw [List.mem_singleton] at hP
        subst hP
        exact ⟨one_dvd _, by simp⟩)).1,
   (history_invariant [(1:ℚ)] [1] [[1]] Nat.one_pos Nat.one_pos
      (by
        intro P hP
        rw [List.mem_singleton] at hP
        subst hP
        exact ⟨one_dvd _, by simp⟩)).2.1⟩

/-- Witness for the amended C8 at `nodes = steps = 1`, capacity `0`. -/
theorem step_length_capacity_witness :
    (stepS 1 1 [(1:ℚ)] [1] [0] [(0:ℚ), 0]).length = (1 + 1) * 1
    ∧ 0 ≤ growCapacity 0 ((1 + 1) * 1) :=
  step_length_capacity [1] [1] [0] [0, 0] 0 (le_refl 1)

/-- Witness for C9 at `nodes = cores = steps = 1`, zero power `P = [0]`,
ambient `3`. -/
theorem zero_power_ambient_witness :
    (stepQ 1 1 1 [(1:ℚ)] 3 (stepS 1 1 [(1:ℚ)] [1] [0] (initS 1)) [0]).getD 0 0 = 3 :=
  zero_power_ambient [1] [1] [0] [1] [0] 3 Nat.one_pos Nat.one_pos (le_refl 1)
    (by intro i; cases i <;> rfl) (by simp) 0 Nat.one_pos

/-- Witness for C10 at `nodes = cores = steps = 1` with two output buffers of
different prior contents. -/
theorem step_output_frame_witness :
    (stepQ 1 1 1 [(1:ℚ)] 0 [0] [5]).getD 0 0 = (stepQ 1 1 1 [(1:ℚ)] 0 [0] [6]).getD 0 0 :=
  (@step_output_frame ℚ _ 1 1 1 [1] [0] 0 [5] [6] (by simp) (by simp)).2.1
    0 Nat.one_pos

end Temperature
